import Mathlib

/-!
Verification development for the awgo fuzzy ranking engine and workflow
runner.  The fuzzy engine (score model, match engine, ranker, filter) is
modelled from the design document, since only its caller
(examples/fuzzy-custom/fuzzy-custom.go) ships in the tree; the workflow
runner (workflow.go) is embedded from the source.
-/

namespace Fuzzy

/-- Modelled from the spec: the six real-valued weights of §3 (ScoreModel).
The fuzzy package itself is not in the tree; weights are modelled as
rationals. -/
structure ScoreModel where
  AdjacencyBonus : ℚ
  CamelBonus : ℚ
  SeparatorBonus : ℚ
  LeadingLetterPenalty : ℚ
  MaxLeadingLetterPenalty : ℚ
  UnmatchedLetterPenalty : ℚ
  deriving DecidableEq

/-- Modelled from the spec: the default weights listed in §6. -/
def defaultModel : ScoreModel :=
  { AdjacencyBonus := 5
    CamelBonus := 10
    SeparatorBonus := 15
    LeadingLetterPenalty := -3
    MaxLeadingLetterPenalty := -6
    UnmatchedLetterPenalty := -1 }

/-- Modelled from the spec: a separator is a non-alphanumeric delimiter
character (glossary). -/
def isSeparator (c : Char) : Bool := !c.isAlphanum

/-- Modelled from the spec: the bonus collected when a query character is
matched at a key position (§4.1).  `prev` is the key character immediately
before the matched one (none at the start of the key), `pc` says whether
that previous character was consumed by the previous query character,
`skipped` counts the key characters preceding the first match, and `first`
says whether the first query character is being matched. -/
def matchBonus (sm : ScoreModel) (prev : Option Char) (pc : Bool) (skipped : Nat)
    (first : Bool) (c : Char) : ℚ :=
  (if pc then sm.AdjacencyBonus else 0) +
    (match prev with
      | some p =>
        (if p.isLower && c.isUpper then sm.CamelBonus else 0) +
          (if isSeparator p then sm.SeparatorBonus else 0)
      | none => 0) +
    (if first then max (sm.LeadingLetterPenalty * skipped) sm.MaxLeadingLetterPenalty else 0)

/-- Combines the two branches of the search, keeping the better score when
both are feasible. -/
def optMax : Option ℚ → Option ℚ → Option ℚ
  | none, none => none
  | some a, none => some a
  | none, some b => some b
  | some a, some b => some (max a b)

/-- Modelled from the spec: the optimal-score alignment search of §4.1.
At each step the engine either skips the next key character (adding the
unmatched-letter penalty) or, when it equals the next query character
case-insensitively, consumes it (adding the match bonus); the better of
the two branches is kept.  Once the query is exhausted every remaining
key character contributes the unmatched-letter penalty; `none` means the
query cannot be fully consumed. -/
def fuzzyGo (sm : ScoreModel) :
    List Char → List Char → Option Char → Bool → Nat → Bool → Option ℚ
  | [], k, _, _, _, _ => some (sm.UnmatchedLetterPenalty * (k.length : ℚ))
  | _ :: _, [], _, _, _, _ => none
  | qc :: qr, kc :: kr, prev, pc, skipped, first =>
    optMax
      ((fuzzyGo sm (qc :: qr) kr (some kc) false
          (if first then skipped + 1 else skipped) first).map
        (fun v => v + sm.UnmatchedLetterPenalty))
      (if kc.toLower = qc.toLower then
        (fuzzyGo sm qr kr (some kc) true 0 false).map
          (fun v => v + matchBonus sm prev pc skipped first kc)
      else none)

/-- Modelled from the spec: `Evaluate(query, key)` of §4.1.  An empty query
matches with score 0; otherwise the optimal-score search decides the match
flag and the score. -/
def Evaluate (sm : ScoreModel) (query key : List Char) : Bool × ℚ :=
  if query = [] then (true, 0)
  else
    match fuzzyGo sm query key none false 0 true with
    | some s => (true, s)
    | none => (false, 0)

/-- The score of one specific alignment of the query inside the key, as the
claim states it: each key character either is skipped, contributing the
unmatched-letter penalty, or consumed by the next query character when equal
to it case-insensitively, contributing the match bonus; once the query is
exhausted every remaining key character counts as unmatched.  A derivation
of `AlignScore sm q k prev pc skipped first x` is exactly one alignment of
`q` within `k`, with score `x`. -/
inductive AlignScore (sm : ScoreModel) :
    List Char → List Char → Option Char → Bool → Nat → Bool → ℚ → Prop where
  | done (k : List Char) (prev : Option Char) (pc : Bool) (skipped : Nat) (first : Bool) :
      AlignScore sm [] k prev pc skipped first (sm.UnmatchedLetterPenalty * (k.length : ℚ))
  | skip {qc : Char} {qr : List Char} {kc : Char} {kr : List Char} {prev : Option Char}
      {pc : Bool} {skipped : Nat} {first : Bool} {x : ℚ}
      (h : AlignScore sm (qc :: qr) kr (some kc) false
            (if first then skipped + 1 else skipped) first x) :
      AlignScore sm (qc :: qr) (kc :: kr) prev pc skipped first
        (x + sm.UnmatchedLetterPenalty)
  | consume {qc : Char} {qr : List Char} {kc : Char} {kr : List Char} {prev : Option Char}
      {pc : Bool} {skipped : Nat} {first : Bool} {x : ℚ}
      (hc : kc.toLower = qc.toLower)
      (h : AlignScore sm qr kr (some kc) true 0 false x) :
      AlignScore sm (qc :: qr) (kc :: kr) prev pc skipped first
        (x + matchBonus sm prev pc skipped first kc)

/-- The search is sound and complete for alignment scores: when it returns a
score, that score is achieved by an alignment and no alignment beats it;
when it fails, no alignment exists. -/
theorem fuzzyGo_spec (sm : ScoreModel) :
    ∀ (k q : List Char) (prev : Option Char) (pc : Bool) (skipped : Nat) (first : Bool),
      (∀ s, fuzzyGo sm q k prev pc skipped first = some s →
          AlignScore sm q k prev pc skipped first s ∧
            ∀ x, AlignScore sm q k prev pc skipped first x → x ≤ s) ∧
        (fuzzyGo sm q k prev pc skipped first = none →
          ∀ x, ¬ AlignScore sm q k prev pc skipped first x) := by
  intro k
  induction k with
  | nil =>
    intro q prev pc skipped first
    cases q with
    | nil =>
      constructor
      · intro s hs
        simp only [fuzzyGo, Option.some.injEq] at hs
        subst hs
        refine ⟨AlignScore.done _ _ _ _ _, ?_⟩
        intro x hx
        cases hx
        exact le_rfl
      · intro h
        simp [fuzzyGo] at h
    | cons qc qr =>
      refine ⟨fun s hs => ?_, fun _ x hx => ?_⟩
      · simp [fuzzyGo] at hs
      · cases hx
  | cons kc kr ih =>
    intro q prev pc skipped first
    cases q with
    | nil =>
      constructor
      · intro s hs
        simp only [fuzzyGo, Option.some.injEq] at hs
        subst hs
        refine ⟨AlignScore.done _ _ _ _ _, ?_⟩
        intro x hx
        cases hx
        exact le_rfl
      · intro h
        simp [fuzzyGo] at h
    | cons qc qr =>
      have IHs := ih (qc :: qr) (some kc) false (if first then skipped + 1 else skipped) first
      have IHc := ih qr (some kc) true 0 false
      by_cases hm : kc.toLower = qc.toLower
      · cases hA : fuzzyGo sm (qc :: qr) kr (some kc) false
            (if first then skipped + 1 else skipped) first with
        | none =>
          cases hB : fuzzyGo sm qr kr (some kc) true 0 false with
          | none =>
            have hval : fuzzyGo sm (qc :: qr) (kc :: kr) prev pc skipped first = none := by
              simp [fuzzyGo, hA, hB, hm, optMax]
            constructor
            · intro s hs
              rw [hval] at hs
              simp at hs
            · intro _ x hx
              cases hx with
              | skip h => exact (IHs.2 hA) _ h
              | consume hcc h => exact (IHc.2 hB) _ h
          | some b =>
            have hval : fuzzyGo sm (qc :: qr) (kc :: kr) prev pc skipped first =
                some (b + matchBonus sm prev pc skipped first kc) := by
              simp [fuzzyGo, hA, hB, hm, optMax]
            constructor
            · intro s hs
              rw [hval] at hs
              injection hs with hs
              subst hs
              refine ⟨AlignScore.consume hm (IHc.1 b hB).1, ?_⟩
              intro x hx
              cases hx with
              | skip h => exact absurd h ((IHs.2 hA) _)
              | consume hcc h => exact add_le_add_right ((IHc.1 b hB).2 _ h) _
            · intro h
              rw [hval] at h
              simp at h
        | some a =>
          cases hB : fuzzyGo sm qr kr (some kc) true 0 false with
          | none =>
            have hval : fuzzyGo sm (qc :: qr) (kc :: kr) prev pc skipped first =
                some (a + sm.UnmatchedLetterPenalty) := by
              simp [fuzzyGo, hA, hB, hm, optMax]
            constructor
            · intro s hs
              rw [hval] at hs
              injection hs with hs
              subst hs
              refine ⟨AlignScore.skip (IHs.1 a hA).1, ?_⟩
              intro x hx
              cases hx with
              | skip h => exact add_le_add_right ((IHs.1 a hA).2 _ h) _
              | consume hcc h => exact absurd h ((IHc.2 hB) _)
            · intro h
              rw [hval] at h
              simp at h
          | some b =>
            have hval : fuzzyGo sm (qc :: qr) (kc :: kr) prev pc skipped first =
                some (max (a + sm.UnmatchedLetterPenalty)
                  (b + matchBonus sm prev pc skipped first kc)) := by
              simp [fuzzyGo, hA, hB, hm, optMax]
            constructor
            · intro s hs
              rw [hval] at hs
              injection hs with hs
              subst hs
              constructor
              · rcases max_choice (a + sm.UnmatchedLetterPenalty)
                    (b + matchBonus sm prev pc skipped first kc) with hc | hc
                · rw [hc]
                  exact AlignScore.skip (IHs.1 a hA).1
                · rw [hc]
                  exact AlignScore.consume hm (IHc.1 b hB).1
              · intro x hx
                cases hx with
                | skip h =>
                  exact le_trans (add_le_add_right ((IHs.1 a hA).2 _ h) _) (le_max_left _ _)
                | consume hcc h =>
                  exact le_trans (add_le_add_right ((IHc.1 b hB).2 _ h) _) (le_max_right _ _)
            · intro h
              rw [hval] at h
              simp at h
      · cases hA : fuzzyGo sm (qc :: qr) kr (some kc) false
            (if first then skipped + 1 else skipped) first with
        | none =>
          have hval : fuzzyGo sm (qc :: qr) (kc :: kr) prev pc skipped first = none := by
            simp [fuzzyGo, hA, hm, optMax]
          constructor
          · intro s hs
            rw [hval] at hs
            simp at hs
          · intro _ x hx
            cases hx with
            | skip h => exact (IHs.2 hA) _ h
            | consume hcc h => exact absurd hcc hm
        | some a =>
          have hval : fuzzyGo sm (qc :: qr) (kc :: kr) prev pc skipped first =
              some (a + sm.UnmatchedLetterPenalty) := by
            simp [fuzzyGo, hA, hm, optMax]
          constructor
          · intro s hs
            rw [hval] at hs
            injection hs with hs
            subst hs
            refine ⟨AlignScore.skip (IHs.1 a hA).1, ?_⟩
            intro x hx
            cases hx with
            | skip h => exact add_le_add_right ((IHs.1 a hA).2 _ h) _
            | consume hcc h => exact absurd hcc hm
          · intro h
            rw [hval] at h
            simp at h

/-- An alignment of the query within the key exists exactly when the
lower-cased query is a sublist (subsequence in the same relative order) of
the lower-cased key. -/
theorem alignScore_exists_iff_sublist (sm : ScoreModel) :
    ∀ (k q : List Char) (prev : Option Char) (pc : Bool) (skipped : Nat) (first : Bool),
      (∃ x, AlignScore sm q k prev pc skipped first x) ↔
        List.Sublist (q.map Char.toLower) (k.map Char.toLower) := by
  intro k
  induction k with
  | nil =>
    intro q prev pc skipped first
    cases q with
    | nil =>
      simp only [List.map_nil]
      exact ⟨fun _ => List.nil_sublist _, fun _ => ⟨_, AlignScore.done _ _ _ _ _⟩⟩
    | cons qc qr =>
      simp only [List.map_nil, List.map_cons]
      constructor
      · rintro ⟨x, hx⟩
        cases hx
      · intro h
        exact absurd h (by simp)
  | cons kc kr ih =>
    intro q prev pc skipped first
    cases q with
    | nil =>
      simp only [List.map_nil]
      exact ⟨fun _ => List.nil_sublist _, fun _ => ⟨_, AlignScore.done _ _ _ _ _⟩⟩
    | cons qc qr =>
      simp only [List.map_cons]
      constructor
      · rintro ⟨x, hx⟩
        cases hx with
        | skip h =>
          have hs := (ih (qc :: qr) (some kc) false
            (if first then skipped + 1 else skipped) first).1 ⟨_, h⟩
          simp only [List.map_cons] at hs
          exact hs.cons _
        | consume hc h =>
          have hs := (ih qr (some kc) true 0 false).1 ⟨_, h⟩
          rw [← hc]
          exact hs.cons₂ _
      · intro h
        rcases List.sublist_cons_iff.1 h with h2 | ⟨r, hr, h2⟩
        · obtain ⟨x, hx⟩ := (ih (qc :: qr) (some kc) false
            (if first then skipped + 1 else skipped) first).2 (by simpa using h2)
          exact ⟨_, AlignScore.skip hx⟩
        · injection hr with hr1 hr2
          subst hr2
          obtain ⟨x, hx⟩ := (ih qr (some kc) true 0 false).2 h2
          exact ⟨_, AlignScore.consume hr1.symm hx⟩

/-- C1 (amended): for every nonempty query and every key, Evaluate reports a
match exactly when the lower-cased query is a subsequence of the lower-cased
key, and the reported score is then the greatest score over all alignments
of the query within the key. -/
theorem evaluate_nonempty_optimal (sm : ScoreModel) (q k : List Char) (hq : q ≠ []) :
    ((Evaluate sm q k).1 = true ↔
        List.Sublist (q.map Char.toLower) (k.map Char.toLower)) ∧
      ((Evaluate sm q k).1 = true →
        IsGreatest {x : ℚ | AlignScore sm q k none false 0 true x} (Evaluate sm q k).2) := by
  have hspec := fuzzyGo_spec sm k q none false 0 true
  have hiff := alignScore_exists_iff_sublist sm k q none false 0 true
  cases hE : fuzzyGo sm q k none false 0 true with
  | none =>
    have hne : ¬ List.Sublist (q.map Char.toLower) (k.map Char.toLower) := by
      rw [← hiff]
      rintro ⟨x, hx⟩
      exact hspec.2 hE x hx
    have hev : Evaluate sm q k = (false, 0) := by
      simp [Evaluate, hq, hE]
    rw [hev]
    exact ⟨by simpa using hne, by simp⟩
  | some s =>
    have hs := hspec.1 s hE
    have hev : Evaluate sm q k = (true, s) := by
      simp [Evaluate, hq, hE]
    rw [hev]
    refine ⟨⟨fun _ => hiff.1 ⟨s, hs.1⟩, fun _ => rfl⟩, fun _ => ⟨hs.1, fun x hx => hs.2 x hx⟩⟩

/-- Witness for evaluate_nonempty_optimal at query "ab", key "aab". -/
theorem evaluate_nonempty_optimal_witness :
    ([ 'a', 'b' ] ≠ ([] : List Char)) ∧
      (((Evaluate defaultModel [ 'a', 'b' ] [ 'a', 'a', 'b' ]).1 = true ↔
          List.Sublist ([ 'a', 'b' ].map Char.toLower)
            ([ 'a', 'a', 'b' ].map Char.toLower)) ∧
        ((Evaluate defaultModel [ 'a', 'b' ] [ 'a', 'a', 'b' ]).1 = true →
          IsGreatest
            {x : ℚ |
              AlignScore defaultModel [ 'a', 'b' ] [ 'a', 'a', 'b' ] none false 0 true x}
            (Evaluate defaultModel [ 'a', 'b' ] [ 'a', 'a', 'b' ]).2)) :=
  ⟨by decide, evaluate_nonempty_optimal defaultModel _ _ (by decide)⟩

/-- C1 as stated fails at the empty query: Evaluate returns score 0 there,
while the only alignment of the empty query within the key "a" scores the
unmatched-letter penalty, -1. -/
theorem evaluate_empty_query_breaks_alignment_max :
    Evaluate defaultModel [] [ 'a' ] = (true, 0) ∧
      IsGreatest {x : ℚ | AlignScore defaultModel [] [ 'a' ] none false 0 true x} (-1) ∧
      ((0 : ℚ) ≠ -1) := by
  refine ⟨by simp [Evaluate], ⟨?_, ?_⟩, by norm_num⟩
  · have h := @AlignScore.done defaultModel [ 'a' ] none false 0 true
    norm_num [defaultModel] at h
    exact h
  · intro x hx
    cases hx
    norm_num [defaultModel]

/-- C6: the empty query matches every key, with score 0. -/
theorem evaluate_empty_query (sm : ScoreModel) (k : List Char) :
    Evaluate sm [] k = (true, 0) := by
  simp [Evaluate]

/-- C5: with the default weights, query "ab" matches both "aab" and "a-b",
the score of "a-b" (separator bonus) strictly exceeding that of "aab"
(plain adjacency), and does not match "xyz". -/
theorem evaluate_example_ab :
    (Evaluate defaultModel [ 'a', 'b' ] [ 'a', 'a', 'b' ]).1 = true ∧
      (Evaluate defaultModel [ 'a', 'b' ] [ 'a', '-', 'b' ]).1 = true ∧
      (Evaluate defaultModel [ 'a', 'b' ] [ 'x', 'y', 'z' ]).1 = false ∧
      (Evaluate defaultModel [ 'a', 'b' ] [ 'a', 'a', 'b' ]).2 <
        (Evaluate defaultModel [ 'a', 'b' ] [ 'a', '-', 'b' ]).2 := by
  have h1 : Evaluate defaultModel [ 'a', 'b' ] [ 'a', 'a', 'b' ] = (true, 1) := by
    simp +decide [Evaluate, fuzzyGo, optMax, matchBonus, isSeparator, defaultModel]
    norm_num [max_def]
  have h2 : Evaluate defaultModel [ 'a', 'b' ] [ 'a', '-', 'b' ] = (true, 14) := by
    simp +decide [Evaluate, fuzzyGo, optMax, matchBonus, isSeparator, defaultModel]
    norm_num [max_def]
  have h3 : (Evaluate defaultModel [ 'a', 'b' ] [ 'x', 'y', 'z' ]).1 = false := by
    simp +decide [Evaluate, fuzzyGo, optMax, matchBonus, isSeparator, defaultModel]
  rw [h1, h2]
  exact ⟨rfl, rfl, h3, by norm_num⟩

/-- Modelled from the spec: the per-candidate result of §3 (MatchResult). -/
structure MatchResult where
  Index : Nat
  Match : Bool
  Score : ℚ
  deriving DecidableEq

/-- Modelled from the spec: the Ranker of §4.2.  It evaluates the query
against every derived sort key and returns one result per candidate, in
the original collection order. -/
def Rank (sm : ScoreModel) (query : List Char) (keys : List (List Char)) :
    List MatchResult :=
  keys.enum.map fun p =>
    { Index := p.1
      Match := (Evaluate sm query p.2).1
      Score := (Evaluate sm query p.2).2 }

/-- C2: the Ranking is aligned one to one with the input collection: its
length equals the collection length, its i-th element carries index i, and
each result is the evaluation of the corresponding key, in original order. -/
theorem rank_aligned_contract (sm : ScoreModel) (query : List Char)
    (keys : List (List Char)) :
    (Rank sm query keys).length = keys.length ∧
      (Rank sm query keys).map (fun r => r.Index) = List.range keys.length ∧
      (Rank sm query keys).map (fun r => (r.Match, r.Score)) =
        keys.map (fun key => Evaluate sm query key) := by
  refine ⟨by simp [Rank], ?_, ?_⟩
  · rw [Rank, List.map_map]
    exact List.enum_map_fst keys
  · rw [Rank, List.map_map]
    have : ((fun r : MatchResult => (r.Match, r.Score)) ∘ fun p : Nat × List Char =>
        ({ Index := p.1, Match := (Evaluate sm query p.2).1,
           Score := (Evaluate sm query p.2).2 } : MatchResult)) =
        (fun key => Evaluate sm query key) ∘ Prod.snd := by
      funext p
      simp [Function.comp]
    rw [this, ← List.map_map]
    rw [List.enum_map_snd]

/-- Modelled from the spec: the order used by the Filter stage of §4.3,
score descending, ties broken by original position ascending (the stable
tie-break). -/
def selOrder {α : Type} (p q : α × MatchResult) : Prop :=
  q.2.Score < p.2.Score ∨ (p.2.Score = q.2.Score ∧ p.2.Index ≤ q.2.Index)

instance {α : Type} : DecidableRel (@selOrder α) := fun p q => by
  unfold selOrder
  infer_instance

instance {α : Type} : IsTotal (α × MatchResult) selOrder := by
  constructor
  intro a b
  rcases lt_trichotomy a.2.Score b.2.Score with h | h | h
  · exact Or.inr (Or.inl h)
  · rcases Nat.le_total a.2.Index b.2.Index with hi | hi
    · exact Or.inl (Or.inr ⟨h, hi⟩)
    · exact Or.inr (Or.inr ⟨h.symm, hi⟩)
  · exact Or.inl (Or.inl h)

instance {α : Type} : IsTrans (α × MatchResult) selOrder := by
  constructor
  intro a b c hab hbc
  rcases hab with hab | ⟨hab1, hab2⟩
  · rcases hbc with hbc | ⟨hbc1, hbc2⟩
    · exact Or.inl (lt_trans hbc hab)
    · exact Or.inl (hbc1 ▸ hab)
  · rcases hbc with hbc | ⟨hbc1, hbc2⟩
    · exact Or.inl (by rw [hab1]; exact hbc)
    · exact Or.inr ⟨hab1.trans hbc1, le_trans hab2 hbc2⟩

/-- Modelled from the spec: the Filter stage of §4.3 before truncation.
It keeps the candidates whose result has Match true and sorts them by the
stable score-descending order. -/
def SelectPairs {α : Type} (C : List α) (R : List MatchResult) :
    List (α × MatchResult) :=
  List.insertionSort selOrder ((C.zip R).filter fun p => p.2.Match)

/-- Modelled from the spec: `Select(collection, ranking, maxResults)` of
§4.3; a positive maxResults truncates after sorting, a nonpositive one
means unbounded. -/
def Select {α : Type} (C : List α) (R : List MatchResult) (maxResults : Int) :
    List α :=
  (if 0 < maxResults then (SelectPairs C R).take maxResults.toNat
   else SelectPairs C R).map Prod.fst

/-- In a well-formed ranking the index stored at each position is that
position, so the indices carried through zip are exactly 0,1,2,... -/
theorem zip_index_eq {α : Type} (C : List α) (R : List MatchResult)
    (hR : R.map (fun r => r.Index) = List.range R.length) :
    ((C.zip R).map fun p => p.2.Index) = List.range (C.zip R).length := by
  apply List.ext_getElem
  · simp
  · intro i h1 h2
    have hzip : i < (C.zip R).length := by simpa using h1
    have hiR : i < R.length := by
      rw [List.length_zip] at hzip
      omega
    have hiC : i < C.length := by
      rw [List.length_zip] at hzip
      omega
    have hm : i < (R.map fun r => r.Index).length := by simpa using hiR
    have h4 : (R.map fun r => r.Index)[i] = i := by
      simp only [hR, List.getElem_range]
    rw [List.getElem_map] at h4
    simp only [List.getElem_map, List.getElem_range, List.getElem_zip]
    exact h4

/-- The original positions carried by the retained, sorted candidates are
pairwise distinct. -/
theorem selectPairs_index_nodup {α : Type} (C : List α) (R : List MatchResult)
    (hR : R.map (fun r => r.Index) = List.range R.length) :
    ((SelectPairs C R).map fun p => p.2.Index).Nodup := by
  have h0 : ((C.zip R).map fun p => p.2.Index).Nodup := by
    rw [zip_index_eq C R hR]
    exact List.nodup_range _
  have hsub : ((C.zip R).filter fun p => p.2.Match).Sublist (C.zip R) :=
    List.filter_sublist _
  have h1 : (((C.zip R).filter fun p => p.2.Match).map fun p => p.2.Index).Nodup :=
    List.Nodup.sublist (hsub.map fun p => p.2.Index) h0
  have hperm : (SelectPairs C R).Perm ((C.zip R).filter fun p => p.2.Match) :=
    List.perm_insertionSort _ _
  exact ((hperm.map fun p => p.2.Index).nodup_iff).2 h1

/-- C4: Select retains exactly the candidates whose result has Match true,
in an order that is score-descending with equal scores kept in original
collection order (the index carried by the ranking, which is the position
in the collection). -/
theorem select_exact_matches_ordered_stable {α : Type} (C : List α)
    (R : List MatchResult)
    (hR : R.map (fun r => r.Index) = List.range R.length) :
    (SelectPairs C R).Perm ((C.zip R).filter fun p => p.2.Match) ∧
      (SelectPairs C R).Pairwise
        (fun p q => q.2.Score < p.2.Score ∨
          (p.2.Score = q.2.Score ∧ p.2.Index < q.2.Index)) ∧
      Select C R 0 = (SelectPairs C R).map Prod.fst ∧
      ∀ i (h : i < (C.zip R).length), ((C.zip R).get ⟨i, h⟩).2.Index = i := by
  refine ⟨List.perm_insertionSort _ _, ?_, by simp [Select], ?_⟩
  · have hsorted : (SelectPairs C R).Pairwise selOrder :=
      List.sorted_insertionSort _ _
    have hnd := selectPairs_index_nodup C R hR
    rw [List.Nodup, List.pairwise_map] at hnd
    refine (hsorted.and hnd).imp ?_
    rintro p q ⟨hpq, hne2⟩
    rcases hpq with h | ⟨h1, h2⟩
    · exact Or.inl h
    · exact Or.inr ⟨h1, lt_of_le_of_ne h2 hne2⟩
  · intro i h
    have heq := zip_index_eq C R hR
    have hm : i < ((C.zip R).map fun p => p.2.Index).length := by simpa using h
    have h4 : ((C.zip R).map fun p => p.2.Index)[i] = i := by
      simp only [heq, List.getElem_range]
    rw [List.getElem_map] at h4
    simpa [List.get_eq_getElem] using h4

/-- Witness for select_exact_matches_ordered_stable on a two-candidate
collection. -/
theorem select_exact_matches_ordered_stable_witness :
    (([⟨0, true, 1⟩, ⟨1, true, 2⟩] : List MatchResult).map (fun r => r.Index) =
        List.range ([⟨0, true, 1⟩, ⟨1, true, 2⟩] : List MatchResult).length) ∧
      ((SelectPairs [10, 20] [⟨0, true, 1⟩, ⟨1, true, 2⟩]).Perm
          (([10, 20].zip ([⟨0, true, 1⟩, ⟨1, true, 2⟩] : List MatchResult)).filter
            fun p => p.2.Match) ∧
        (SelectPairs [10, 20] [⟨0, true, 1⟩, ⟨1, true, 2⟩]).Pairwise
          (fun p q => q.2.Score < p.2.Score ∨
            (p.2.Score = q.2.Score ∧ p.2.Index < q.2.Index)) ∧
        Select [10, 20] [⟨0, true, 1⟩, ⟨1, true, 2⟩] 0 =
          (SelectPairs [10, 20] [⟨0, true, 1⟩, ⟨1, true, 2⟩]).map Prod.fst ∧
        ∀ i (h : i < ([10, 20].zip
            ([⟨0, true, 1⟩, ⟨1, true, 2⟩] : List MatchResult)).length),
          (([10, 20].zip ([⟨0, true, 1⟩, ⟨1, true, 2⟩] : List MatchResult)).get
            ⟨i, h⟩).2.Index = i) :=
  ⟨by decide, select_exact_matches_ordered_stable [10, 20] _ (by decide)⟩

/-- C7: a positive maxResults truncates the sorted result to at most that
many elements, keeping a prefix of the unbounded result whose dropped tail
scores no higher than any kept element; a nonpositive maxResults returns
everything. -/
theorem select_truncation {α : Type} (C : List α) (R : List MatchResult)
    (m : Int) :
    (0 < m →
        (Select C R m).length ≤ m.toNat ∧
          Select C R m = (Select C R 0).take m.toNat ∧
            ∀ p ∈ (SelectPairs C R).take m.toNat,
              ∀ q2 ∈ (SelectPairs C R).drop m.toNat, q2.2.Score ≤ p.2.Score) ∧
      (m ≤ 0 → Select C R m = (SelectPairs C R).map Prod.fst) := by
  constructor
  · intro hm
    refine ⟨?_, ?_, ?_⟩
    · rw [Select, if_pos hm, List.length_map, List.length_take]
      exact min_le_left _ _
    · have h0 : Select C R 0 = (SelectPairs C R).map Prod.fst := by
        simp [Select]
      rw [h0, Select, if_pos hm, List.map_take]
    · have hsorted : (SelectPairs C R).Pairwise selOrder :=
        List.sorted_insertionSort _ _
      rw [← List.take_append_drop m.toNat (SelectPairs C R),
        List.pairwise_append] at hsorted
      intro p hp q2 hq
      rcases hsorted.2.2 p hp q2 hq with h | ⟨h1, _⟩
      · exact le_of_lt h
      · exact le_of_eq h1.symm
  · intro hm
    rw [Select, if_neg (not_lt.2 hm)]

/-- Witness for select_truncation at maxResults 1 on a two-candidate
collection. -/
theorem select_truncation_witness :
    ((0 : Int) < 1) ∧
      (Select [5, 6] ([⟨0, true, 1⟩, ⟨1, true, 2⟩] : List MatchResult) 1).length ≤
        (1 : Int).toNat ∧
      Select [5, 6] ([⟨0, true, 1⟩, ⟨1, true, 2⟩] : List MatchResult) 1 =
        (Select [5, 6] ([⟨0, true, 1⟩, ⟨1, true, 2⟩] : List MatchResult) 0).take
          (1 : Int).toNat := by
  have h := (select_truncation [5, 6]
    ([⟨0, true, 1⟩, ⟨1, true, 2⟩] : List MatchResult) 1).1 (by norm_num)
  exact ⟨by norm_num, h.1, h.2.1⟩

/-- Modelled from the spec: the configuration error of §7(a). -/
inductive ConfigError where
  | invalidScoreModel
  deriving DecidableEq

/-- Modelled from the spec: the engine instance built at construction time,
holding the validated score model. -/
structure Sorter where
  model : ScoreModel
  deriving DecidableEq

/-- Modelled from the spec: engine construction validates the ScoreModel
invariant of §3 (MaxLeadingLetterPenalty at most LeadingLetterPenalty,
both being penalties) and surfaces a configuration error to the caller
otherwise, never correcting the model silently. -/
def NewSorter (sm : ScoreModel) : Except ConfigError Sorter :=
  if sm.MaxLeadingLetterPenalty ≤ sm.LeadingLetterPenalty then Except.ok ⟨sm⟩
  else Except.error ConfigError.invalidScoreModel

/-- C8: construction succeeds exactly for the models satisfying the
invariant, keeps a valid model unchanged, and rejects an invalid one with
the configuration error. -/
theorem newSorter_validates_model (sm : ScoreModel) :
    ((∃ s, NewSorter sm = Except.ok s) ↔
        sm.MaxLeadingLetterPenalty ≤ sm.LeadingLetterPenalty) ∧
      (∀ s, NewSorter sm = Except.ok s → s.model = sm) ∧
      (¬ sm.MaxLeadingLetterPenalty ≤ sm.LeadingLetterPenalty →
        NewSorter sm = Except.error ConfigError.invalidScoreModel) := by
  by_cases h : sm.MaxLeadingLetterPenalty ≤ sm.LeadingLetterPenalty
  · refine ⟨⟨fun _ => h, fun _ => ⟨⟨sm⟩, by rw [NewSorter, if_pos h]⟩⟩, ?_,
      fun hn => absurd h hn⟩
    intro s hs
    rw [NewSorter, if_pos h] at hs
    injection hs with hs
    rw [← hs]
  · refine ⟨⟨?_, fun hle => absurd hle h⟩, ?_, fun _ => by rw [NewSorter, if_neg h]⟩
    · rintro ⟨s, hs⟩
      rw [NewSorter, if_neg h] at hs
      cases hs
    · intro s hs
      rw [NewSorter, if_neg h] at hs
      cases hs

/-- Witness for newSorter_validates_model at the default weights. -/
theorem newSorter_validates_model_witness :
    NewSorter defaultModel = Except.ok ⟨defaultModel⟩ ∧
      (Sorter.mk defaultModel).model = defaultModel := by
  have hle : defaultModel.MaxLeadingLetterPenalty ≤
      defaultModel.LeadingLetterPenalty := by
    norm_num [defaultModel]
  have hok : NewSorter defaultModel = Except.ok ⟨defaultModel⟩ := by
    rw [NewSorter, if_pos hle]
  exact ⟨hok, (newSorter_validates_model defaultModel).2.1 _ hok⟩

end Fuzzy

namespace FuzzyExample

open Fuzzy

/-- Embedded from fuzzy-custom.go: the Workflow record describing a GitHub
repo; strings are modelled as character lists. -/
structure Wf where
  Name : List Char
  Owner : List Char
  Description : List Char
  Stars : Int
  Topics : List (List Char)
  URL : List Char
  deriving DecidableEq

/-- Embedded from fuzzy-custom.go: Repo is the full name, owner/name. -/
def Repo (w : Wf) : List Char := w.Owner ++ [ '/' ] ++ w.Name

/-- Embedded from fuzzy-custom.go: the derived sort key, owner then a space
then name. -/
def SortKey (w : Wf) : List Char := w.Owner ++ [ ' ' ] ++ w.Name

/-- Embedded from fuzzy-custom.go: the score options the example installs
(sopts). -/
def soptsModel : ScoreModel :=
  { AdjacencyBonus := 5
    CamelBonus := 10
    SeparatorBonus := 15
    LeadingLetterPenalty := -3
    MaxLeadingLetterPenalty := -6
    UnmatchedLetterPenalty := -1 }

/-- Embedded from the loop of Workflows.Filter: walk the candidates paired
with their results, keep the matches, and stop once the count reaches max
when max is positive. -/
def collectHits : List (Wf × MatchResult) → Int → Int → List Wf
  | [], _, _ => []
  | (w, r) :: rest, maxR, n =>
    if r.Match then
      w :: (if 0 < maxR ∧ n + 1 = maxR then [] else collectHits rest maxR (n + 1))
    else collectHits rest maxR n

/-- Embedded from Workflows.Filter (fuzzy-custom.go lines 93-117).  The
sorter invocation is modelled from the spec as Rank over the sort keys (per
§4.2 it reports per-index results in original order); the loop collects the
matching workflows.  Because the Go code builds the result with
`hits := s[:0]` and append, the hits share the input slice's backing array:
the first component is the returned hits, the second the contents the
caller's slice s holds after the call. -/
def Filter (s : List Wf) (query : List Char) (maxR : Int) : List Wf × List Wf :=
  let res := Rank soptsModel query (s.map SortKey)
  let hits := collectHits (s.zip res) maxR 0
  (hits, hits ++ s.drop hits.length)

/-- A workflow whose sort key "x yz" shares no character with the query
"ab". -/
def wfXyz : Wf := ⟨[ 'y', 'z' ], [ 'x' ], [], 0, [], []⟩

/-- A workflow whose sort key "a b" matches the query "ab". -/
def wfAb : Wf := ⟨[ 'b' ], [ 'a' ], [], 0, [], []⟩

/-- C3 fails on the code: filtering [wfXyz, wfAb] with query "ab" returns
[wfAb], and the append into the zero-length reslice of the input overwrites
the first input slot, so the caller's collection reads [wfAb, wfAb] after
the call instead of its original contents. -/
theorem filter_overwrites_input :
    (Filter [wfXyz, wfAb] [ 'a', 'b' ] 200).1 = [wfAb] ∧
      (Filter [wfXyz, wfAb] [ 'a', 'b' ] 200).2 = [wfAb, wfAb] ∧
      (Filter [wfXyz, wfAb] [ 'a', 'b' ] 200).2 ≠ [wfXyz, wfAb] := by
  decide

/-- The hits are picked out of the walked pairs in order. -/
theorem collectHits_sublist :
    ∀ (l : List (Wf × MatchResult)) (maxR n : Int),
      (collectHits l maxR n).Sublist (l.map Prod.fst) := by
  intro l
  induction l with
  | nil =>
    intro maxR n
    simp [collectHits]
  | cons p rest ih =>
    intro maxR n
    obtain ⟨w, r⟩ := p
    cases hr : r.Match with
    | false =>
      simp only [collectHits, hr, Bool.false_eq_true, if_false, List.map_cons]
      exact (ih maxR n).cons _
    | true =>
      simp only [collectHits, hr, if_true, List.map_cons]
      by_cases hcond : 0 < maxR ∧ n + 1 = maxR
      · rw [if_pos hcond]
        exact (List.nil_sublist _).cons₂ _
      · rw [if_neg hcond]
        exact (ih maxR (n + 1)).cons₂ _

/-- C3 (amended): Filter returns the matching candidates as an in-order
subsequence of the input, but it is not pure: the returned subset reuses
the input storage, so after the call the caller's collection holds the hits
followed by the original elements beyond the hit count; the input is intact
only when the hits already form a prefix of it. -/
theorem filter_aliasing_semantics (s : List Wf) (query : List Char) (maxR : Int) :
    (Filter s query maxR).2 =
        (Filter s query maxR).1 ++ s.drop (Filter s query maxR).1.length ∧
      (Filter s query maxR).1.Sublist s ∧
      (Filter s query maxR).1.length ≤ s.length := by
  have h1 : (Filter s query maxR).1 =
      collectHits (s.zip (Rank soptsModel query (s.map SortKey))) maxR 0 := rfl
  have hlen : s.length ≤ (Rank soptsModel query (s.map SortKey)).length := by
    simp [Rank]
  have hsub := collectHits_sublist
    (s.zip (Rank soptsModel query (s.map SortKey))) maxR 0
  rw [List.map_fst_zip _ _ hlen] at hsub
  rw [h1]
  exact ⟨rfl, hsub, hsub.length_le⟩

end FuzzyExample

namespace Workflow

/-- A Go value recovered from a panic: either a value implementing the
error interface (carrying its message) or a plain non-error value such as
a string. -/
inductive GoValue where
  | errVal (msg : String)
  | strVal (s : String)
  deriving DecidableEq

/-- The observable behaviour of the function passed to Run: it either
returns normally or panics with a value. -/
inductive FnBehavior where
  | returns
  | panics (v : GoValue)
  deriving DecidableEq

/-- The observable outcome of Run: a normal return, or termination of the
process with the user-visible error payload sent to Alfred. -/
inductive RunOutcome where
  | normal
  | terminated (payload : String)
  deriving DecidableEq

/-- Embedded from Workflow.Run (workflow.go lines 246-271): a normal return
of fn ends normally after the elapsed-time log; a recovered panic reaches
SendError or SendErrorMsg, which terminate through log.Fatal.  When the
recovered value is an error the payload is its message; otherwise the code
formats the nil err variable left by the failed type assertion, producing
the string between angle brackets, nil. -/
def Run (fn : FnBehavior) : RunOutcome :=
  match fn with
  | FnBehavior.returns => RunOutcome.normal
  | FnBehavior.panics v =>
    match v with
    | GoValue.errVal msg => RunOutcome.terminated msg
    | GoValue.strVal _ => RunOutcome.terminated "<nil>"

/-- C9: Run never lets a panic escape and never returns normally after one,
and a normal run stays normal; but for a non-error panic value such as the
string "boom" the emitted payload is "<nil>" (the formatted nil error
variable), not a description of the panic value. -/
theorem run_panic_nonerror_payload :
    Run (FnBehavior.panics (GoValue.strVal "boom")) =
        RunOutcome.terminated "<nil>" ∧
      Run (FnBehavior.panics (GoValue.errVal "bad file")) =
        RunOutcome.terminated "bad file" ∧
      Run FnBehavior.returns = RunOutcome.normal ∧
      "<nil>" ≠ "boom" := by
  refine ⟨rfl, rfl, rfl, by decide⟩

/-- Embedded from workflow.go: the fields read out of info.plist. -/
structure Info where
  BundleId : String
  Author : String
  Description : String
  Name : String
  Readme : String
  Website : String
  deriving DecidableEq

/-- Embedded from workflow.go: the cached state GetBundleId consults — the
bundle id and name seeded from the environment by loadEnv, and the
info.plist cache. -/
structure WorkflowState where
  bundleId : String
  name : String
  infoLoaded : Bool
  info : Info
  deriving DecidableEq

/-- Embedded from loadEnv: bundleId and name come from the
alfred_workflow_bundleid and alfred_workflow_name environment variables. -/
def loadEnvState (env : String → String) : WorkflowState :=
  { bundleId := env "alfred_workflow_bundleid"
    name := env "alfred_workflow_name"
    infoLoaded := false
    info := ⟨"", "", "", "", "", ""⟩ }

/-- Embedded from readInfoPlist: a cached load changes nothing; otherwise
the plist read either fails or fills the cache, copying the bundle id and
the name out of the parsed Info. -/
def readInfoPlist (wf : WorkflowState) (plistData : Except String Info) :
    Except String WorkflowState :=
  if wf.infoLoaded then Except.ok wf
  else
    match plistData with
    | Except.error e => Except.error e
    | Except.ok info =>
      Except.ok { wf with
        info := info
        bundleId := info.BundleId
        name := info.Name
        infoLoaded := true }

/-- The outcome of a call that may terminate the process by sending an
error to Alfred (SendError and SendErrorMsg end in log.Fatal). -/
inductive CallOutcome (A : Type) where
  | returned (value : A) (st : WorkflowState)
  | terminated (payload : String)
  deriving DecidableEq

/-- Embedded from Workflow.GetBundleId (workflow.go lines 172-182): an
empty cached bundle id triggers a plist read (whose failure terminates
through SendError); if the id is still empty the call terminates through
SendErrorMsg, otherwise the id is returned. -/
def GetBundleId (wf : WorkflowState) (plistData : Except String Info) :
    CallOutcome String :=
  if wf.bundleId = "" then
    match readInfoPlist wf plistData with
    | Except.error e => CallOutcome.terminated e
    | Except.ok wf2 =>
      if wf2.bundleId = "" then
        CallOutcome.terminated
          "No bundle ID set in info.plist. You *must* set a bundle ID to use awgo."
      else CallOutcome.returned wf2.bundleId wf2
  else CallOutcome.returned wf.bundleId wf

/-- C10: GetBundleId never returns the empty string: every call either
terminates the process with an error payload or returns a non-empty bundle
id. -/
theorem getBundleId_never_empty (wf : WorkflowState)
    (plistData : Except String Info) :
    ∀ r st, GetBundleId wf plistData = CallOutcome.returned r st → r ≠ "" := by
  intro r st h hr
  subst hr
  rw [GetBundleId] at h
  by_cases h1 : wf.bundleId = ""
  · rw [if_pos h1] at h
    cases hp : readInfoPlist wf plistData with
    | error e =>
      rw [hp] at h
      dsimp only at h
      cases h
    | ok wf2 =>
      rw [hp] at h
      dsimp only at h
      by_cases h2 : wf2.bundleId = ""
      · rw [if_pos h2] at h
        cases h
      · rw [if_neg h2] at h
        injection h with hv hst
        exact h2 hv
  · rw [if_neg h1] at h
    injection h with hv hst
    exact h1 hv

/-- Witness for getBundleId_never_empty: a state whose environment already
supplied a bundle id returns it, and it is non-empty. -/
theorem getBundleId_never_empty_witness :
    GetBundleId ⟨"net.deanishe.demo", "demo", false, ⟨"", "", "", "", "", ""⟩⟩
        (Except.error "no plist") =
      CallOutcome.returned "net.deanishe.demo"
        ⟨"net.deanishe.demo", "demo", false, ⟨"", "", "", "", "", ""⟩⟩ ∧
      "net.deanishe.demo" ≠ "" := by
  have hret : GetBundleId
      ⟨"net.deanishe.demo", "demo", false, ⟨"", "", "", "", "", ""⟩⟩
      (Except.error "no plist") =
      CallOutcome.returned "net.deanishe.demo"
        ⟨"net.deanishe.demo", "demo", false, ⟨"", "", "", "", "", ""⟩⟩ := by
    decide
  exact ⟨hret, getBundleId_never_empty _ _ _ _ hret⟩

end Workflow
